import Mathlib

/-!
Verification of the `seyb/task-manager` core (`src/lib.rs`): a `Task`
record (title, description, optional completion instant) and a
`TaskCollection` backed by an ordered sequence.

Modelling choices:
- Rust `String` is Lean `String`; `Vec<Task>` is `List Task`.
- `SystemTime` is modelled as `Nat` (an abstract instant); the call to
  `SystemTime::now()` inside `Task::complete` is modelled by passing the
  current clock reading `now : Nat` as an explicit argument.
- `Vec::push` appends at the end (`l ++ [t]`); `Vec::retain(pred)` keeps,
  in order, exactly the elements satisfying `pred` (`List.filter`).
- `#[derive(PartialEq)]` on `Task` is structural equality on the three
  fields, which is exactly the derived `DecidableEq`.
-/

namespace TaskManager

/-- `Task` from `src/lib.rs`: title, description, optional completion time. -/
structure Task where
  title : String
  description : String
  completed_at : Option Nat
deriving DecidableEq, Repr

/-- `Task::new(title)`: given title, empty description, `completed_at = None`. -/
def Task.new (title : String) : Task :=
  { title := title, description := "", completed_at := none }

/-- `Task::complete(&mut self)`: `match self.completed_at { None => set Some(now), x => set x }`. -/
def Task.complete (t : Task) (now : Nat) : Task :=
  match t.completed_at with
  | none => { t with completed_at := some now }
  | x => { t with completed_at := x }

/-- `Task::uncomplete(&mut self)`: unconditionally sets `completed_at = None`. -/
def Task.uncomplete (t : Task) : Task :=
  { t with completed_at := none }

/-- `TaskCollection` from `src/lib.rs`: a vector of tasks. -/
@[ext]
structure TaskCollection where
  tasks : List Task
deriving DecidableEq, Repr

/-- `TaskCollection::new()`: `Self { tasks: vec![] }`. -/
def TaskCollection.new : TaskCollection :=
  { tasks := [] }

/-- `TaskCollection::add_task`: `self.tasks.push(task)`. -/
def TaskCollection.add_task (c : TaskCollection) (task : Task) : TaskCollection :=
  { c with tasks := c.tasks ++ [task] }

/-- `TaskCollection::remove_task`: `self.tasks.retain(|t| *t != task)`. -/
def TaskCollection.remove_task (c : TaskCollection) (task : Task) : TaskCollection :=
  { c with tasks := c.tasks.filter (fun t => t != task) }

/-- One caller-visible collection operation (the `Collection` interface calls). -/
inductive Op where
  | add (t : Task)
  | remove (t : Task)
deriving DecidableEq, Repr

/-- Apply one operation to a collection. -/
def applyOp (c : TaskCollection) : Op → TaskCollection
  | Op.add t => c.add_task t
  | Op.remove t => c.remove_task t

/-- Run a sequence of operations starting from `TaskCollection::new()`. -/
def run (ops : List Op) : TaskCollection :=
  ops.foldl applyOp TaskCollection.new

/-- Does this operation remove the task value `x`?  (spec-side notion) -/
def removedBy (x : Task) : Op → Bool
  | Op.add _ => false
  | Op.remove u => x == u

/-- Is `x` removed by some operation in `ops`?  (spec-side notion) -/
def isRemovedIn (x : Task) (ops : List Op) : Bool :=
  ops.any (removedBy x)

/-- Spec-side reference sequence, following §3 of the spec: "the sequence
contains exactly the tasks added and not yet removed, in the order they
were added".  An added task survives iff no later operation removes a
value equal to it. -/
def specSurvivors : List Op → List Task
  | [] => []
  | Op.add t :: rest =>
      if isRemovedIn t rest then specSurvivors rest else t :: specSurvivors rest
  | Op.remove _ :: rest => specSurvivors rest

/-! ## Theorems -/

/-- C6: For every input title, including the empty string, `Task::new(title)`
returns a Task whose title is the given title, whose description is empty,
and whose `completed_at` is `None`. -/
theorem task_new_spec (s : String) :
    (Task.new s).title = s ∧ (Task.new s).description = "" ∧
      (Task.new s).completed_at = none :=
  ⟨rfl, rfl, rfl⟩

/-- C2: `complete` is idempotent: calling it twice (at any two clock
readings) leaves `completed_at` equal to its value after the first call;
on an incomplete task it sets the current time, and on a completed task it
is the identity (never resets or advances the timestamp). -/
theorem complete_idempotent (t : Task) (n₁ n₂ : Nat) :
    ((t.complete n₁).complete n₂).completed_at = (t.complete n₁).completed_at ∧
    (t.completed_at = none → (t.complete n₁).completed_at = some n₁) ∧
    (∀ s, t.completed_at = some s → t.complete n₁ = t) := by
  refine ⟨?_, ?_, ?_⟩
  · cases h : t.completed_at <;> simp [Task.complete, h]
  · intro h; simp [Task.complete, h]
  · intro s h; simp [Task.complete, h]; rw [← h]

/-- C2 witness: completing an already-completed task at a later clock
reading changes nothing, and a double complete agrees with a single one. -/
theorem complete_idempotent_witness :
    (Task.mk "a" "" (some 5)).complete 9 = Task.mk "a" "" (some 5) :=
  (complete_idempotent (Task.mk "a" "" (some 5)) 9 0).2.2 5 rfl

/-- C8: after `complete`, `completed_at` is not `None`; the completion state
machine steps `Incomplete → Completed(now)`, and `complete` on
`Completed(s)` is a self-loop. -/
theorem complete_sets_value (t : Task) (now : Nat) :
    (t.complete now).completed_at ≠ none ∧
    (t.completed_at = none → (t.complete now).completed_at = some now) ∧
    (∀ s, t.completed_at = some s → t.complete now = t) := by
  refine ⟨?_, ?_, ?_⟩
  · cases h : t.completed_at <;> simp [Task.complete, h]
  · intro h; simp [Task.complete, h]
  · intro s h; simp [Task.complete, h]; rw [← h]

/-- C8 witness: completing a fresh task at clock reading 7 yields
`completed_at = some 7 ≠ none`, and completing `Completed(3)` self-loops. -/
theorem complete_sets_value_witness :
    ((Task.new "w").complete 7).completed_at = some 7 ∧
      (Task.mk "w" "" (some 3)).complete 7 = Task.mk "w" "" (some 3) :=
  ⟨(complete_sets_value (Task.new "w") 7).2.1 rfl,
   (complete_sets_value (Task.mk "w" "" (some 3)) 7).2.2 3 rfl⟩

/-- C7: `uncomplete` unconditionally sets `completed_at` to `None`, is
idempotent, and after `complete` then `uncomplete` the task is incomplete
regardless of prior state. -/
theorem uncomplete_spec (t : Task) (now : Nat) :
    t.uncomplete.completed_at = none ∧
    t.uncomplete.uncomplete = t.uncomplete ∧
    ((t.complete now).uncomplete).completed_at = none :=
  ⟨rfl, rfl, rfl⟩

/-- C9: `complete` and `uncomplete` leave `title` and `description`
unchanged (frame property: only `completed_at` is mutated). -/
theorem complete_uncomplete_frame (t : Task) (now : Nat) :
    (t.complete now).title = t.title ∧
    (t.complete now).description = t.description ∧
    t.uncomplete.title = t.title ∧
    t.uncomplete.description = t.description := by
  refine ⟨?_, ?_, rfl, rfl⟩ <;>
    cases h : t.completed_at <;> simp [Task.complete, h]

/-- C5: `add_task` appends the task at the end of the stored sequence,
always succeeds, preserves insertion order across successive adds, and
enforces no uniqueness: the number of stored entries equal to the added
task grows by exactly one. -/
theorem add_task_spec (c : TaskCollection) (t u : Task) :
    (c.add_task t).tasks = c.tasks ++ [t] ∧
    ((c.add_task t).add_task u).tasks = c.tasks ++ [t, u] ∧
    (c.add_task t).tasks.count t = c.tasks.count t + 1 := by
  refine ⟨rfl, by simp [TaskCollection.add_task], ?_⟩
  simp [TaskCollection.add_task]

/-- C1: `remove_task(t)` removes every stored entry equal to `t` and only
those: the result is exactly the original sequence with the entries equal
to `t` dropped (so every non-equal entry is retained), the surviving
entries keep their relative order (the result is a sublist of the original
sequence), and if no entry equals `t` the collection is unchanged. -/
theorem remove_task_spec (c : TaskCollection) (t : Task) :
    (∀ x ∈ (c.remove_task t).tasks, x ≠ t) ∧
    (c.remove_task t).tasks.Sublist c.tasks ∧
    (c.remove_task t).tasks = c.tasks.filter (fun x => x ≠ t) ∧
    ((∀ x ∈ c.tasks, x ≠ t) → c.remove_task t = c) := by
  refine ⟨?_, ?_, ?_, ?_⟩
  · intro x hx
    have := (List.mem_filter.mp hx).2
    simpa using this
  · exact List.filter_sublist c.tasks
  · show c.tasks.filter (fun x => x != t) = c.tasks.filter (fun x => decide (x ≠ t))
    exact List.filter_congr fun a _ => by simp only [bne, ne_eq, decide_not]; rfl
  · intro h
    ext1
    show c.tasks.filter (fun x => x != t) = c.tasks
    exact List.filter_eq_self.mpr fun a ha => by simpa using h a ha

/-- C1 witness: removing a value equal to no stored task leaves the
collection unchanged. -/
theorem remove_task_spec_witness :
    (TaskCollection.new.add_task (Task.new "b")).remove_task (Task.new "a") =
      TaskCollection.new.add_task (Task.new "b") :=
  (remove_task_spec (TaskCollection.new.add_task (Task.new "b")) (Task.new "a")).2.2.2
    (by decide)

/-- C4 counterexample: with two stored entries equal to the argument
(`[A, A]` with `A = Task::new("a")`), `remove_task(A)` does not remove just
one of them: the result is empty, not a sequence one shorter. -/
theorem remove_one_task_cex :
    ((((TaskCollection.new.add_task (Task.new "a")).add_task
        (Task.new "a")).remove_task (Task.new "a")).tasks = []) ∧
    ¬ ((((TaskCollection.new.add_task (Task.new "a")).add_task
        (Task.new "a")).remove_task (Task.new "a")).tasks.length =
       ((TaskCollection.new.add_task (Task.new "a")).add_task
        (Task.new "a")).tasks.length - 1) := by
  decide

/-- C4 amended: `remove_task(t)` removes every entry equal to `t` — no
entry equal to `t` survives, and when one is present the sequence gets
strictly shorter — and is a no-op (not an error) when no equal element
exists. -/
theorem remove_task_contract (c : TaskCollection) (t : Task) :
    (∀ x ∈ (c.remove_task t).tasks, x ≠ t) ∧
    (t ∈ c.tasks → (c.remove_task t).tasks.length < c.tasks.length) ∧
    (t ∉ c.tasks → c.remove_task t = c) := by
  refine ⟨?_, ?_, ?_⟩
  · intro x hx
    have := (List.mem_filter.mp hx).2
    simpa using this
  · intro hmem
    have hs : ((c.remove_task t).tasks).Sublist c.tasks :=
      List.filter_sublist c.tasks
    rcases Nat.lt_or_ge ((c.remove_task t).tasks).length c.tasks.length with hlt | hge
    · exact hlt
    · exfalso
      have heq : (c.remove_task t).tasks = c.tasks :=
        hs.eq_of_length (Nat.le_antisymm hs.length_le hge)
      have : t ∈ (c.remove_task t).tasks := heq ▸ hmem
      have := (List.mem_filter.mp this).2
      simp at this
  · intro h
    ext1
    exact List.filter_eq_self.mpr fun a ha => by
      simp only [bne_iff_ne, ne_eq]
      exact fun heq => h (heq ▸ ha)

/-- C4 witness: removing a present value strictly shrinks the sequence;
removing an absent value is a no-op. -/
theorem remove_task_contract_witness :
    ((TaskCollection.mk [Task.new "a"]).remove_task (Task.new "a")).tasks.length <
      (TaskCollection.mk [Task.new "a"]).tasks.length ∧
    (TaskCollection.mk [Task.new "a"]).remove_task (Task.new "b") =
      TaskCollection.mk [Task.new "a"] :=
  ⟨(remove_task_contract (TaskCollection.mk [Task.new "a"]) (Task.new "a")).2.1 (by decide),
   (remove_task_contract (TaskCollection.mk [Task.new "a"]) (Task.new "b")).2.2 (by decide)⟩

/-- C10: `remove_task` is idempotent: a second removal of the same value
finds no equal entry and changes nothing. -/
theorem remove_task_idem (c : TaskCollection) (t : Task) :
    (c.remove_task t).remove_task t = c.remove_task t := by
  ext1
  simp [TaskCollection.remove_task, List.filter_filter]

/-- Unfolding of `isRemovedIn` on a cons cell. -/
theorem isRemovedIn_cons (x : Task) (op : Op) (ops : List Op) :
    isRemovedIn x (op :: ops) = (removedBy x op || isRemovedIn x ops) := by
  simp [isRemovedIn]

/-- Running any operation sequence from an arbitrary collection keeps, in
order, the initial entries not removed by any operation, followed by the
spec-side survivors of the operation sequence. -/
theorem foldl_applyOp_tasks (ops : List Op) (c : TaskCollection) :
    (ops.foldl applyOp c).tasks =
      c.tasks.filter (fun x => !isRemovedIn x ops) ++ specSurvivors ops := by
  induction ops generalizing c with
  | nil => simp [isRemovedIn, specSurvivors]
  | cons op rest ih =>
    cases op with
    | add t =>
      have h1 : List.foldl applyOp c (Op.add t :: rest) =
          List.foldl applyOp (c.add_task t) rest := rfl
      rw [h1, ih]
      simp only [TaskCollection.add_task, List.filter_append, isRemovedIn_cons,
        removedBy, Bool.false_or, specSurvivors, List.filter_cons, List.filter_nil]
      cases h : isRemovedIn t rest <;> simp [h]
    | remove u =>
      have h1 : List.foldl applyOp c (Op.remove u :: rest) =
          List.foldl applyOp (c.remove_task u) rest := rfl
      rw [h1, ih]
      simp only [TaskCollection.remove_task, List.filter_filter, isRemovedIn_cons,
        removedBy, specSurvivors]
      congr 1
      apply List.filter_congr
      intro a _
      cases hau : a == u <;> cases hr : isRemovedIn a rest <;> simp [bne, hau, hr]

/-- C3: every collection reachable from `TaskCollection::new()` by a
sequence of `add_task`/`remove_task` calls stores exactly the tasks added
and not later removed, in the order they were added (so removal never
reorders survivors), and the initial collection is empty. -/
theorem collection_invariant (ops : List Op) :
    (run ops).tasks = specSurvivors ops ∧ TaskCollection.new.tasks = [] := by
  refine ⟨?_, rfl⟩
  rw [run, foldl_applyOp_tasks]
  simp [TaskCollection.new]

end TaskManager
